import Mathlib

/-!
Shallow embedding of `src/tools/import_qso.py` (ADIF log importer).

The parser `parse_adif` is embedded as pure functions over `List Char`
(characters are treated at the ASCII level: Python's Unicode-aware
`\w`, `\d`, `str.lower()`, `str.strip()` and numeric conversions are
modelled by their ASCII restrictions, which is the fragment the claims
and the file format exercise).  The wall-clock value
`datetime.utcnow()` is an injected parameter `now : Value`.  The loader
part of `main` is embedded as a pure function from the parsed records
to the sequence of `insert_many` calls and printed lines; the MongoDB
contract that `insert_many` returns one generated id per supplied
record ("returning per-record generated identifiers") makes
`len(result.inserted_ids)` equal to the batch length.
-/

/-- Values that can appear in a parsed record: `str`/`int`/`float` from the
field conversion (line 33 and 37-45 of the source), `datetime` from the
derived `qso_datetime` (lines 48-62), and whatever value is injected for
`imported_at`.  Python floats are represented by the exact rational value
of the accepted decimal literal. -/
inductive Value where
  | str (s : String)
  | intV (n : Int)
  | floatV (q : Rat)
  | datetime (year month day hour minute second : Nat)
deriving DecidableEq

/-- A parsed record (`doc` in the source): a Python dict from lower-cased
field names to values, modelled as an association list with unique keys,
insertion ordered. -/
abbrev Doc := List (String × Value)

/-- Python dict assignment `doc[k] = v`: replace the value at the first
occurrence of `k`, or append `(k, v)` at the end if `k` is absent. -/
def Doc.set : Doc → String → Value → Doc
  | [], k, v => [(k, v)]
  | (k₁, v₁) :: rest, k, v =>
      if k₁ = k then (k, v) :: rest else (k₁, v₁) :: Doc.set rest k v

/-- Python dict lookup `doc[k]` / `doc.get(k)`. -/
def Doc.get? : Doc → String → Option Value
  | [], _ => none
  | (k₁, v₁) :: rest, k => if k₁ = k then some v₁ else Doc.get? rest k

/-- ASCII restriction of Python's whitespace for `str.strip()`. -/
def isPySpace (c : Char) : Bool :=
  c == ' ' || c == '\t' || c == '\n' || c == '\r' || c == '\x0b' || c == '\x0c'

/-- `s.strip()`: drop whitespace from both ends. -/
def pyStrip (cs : List Char) : List Char :=
  ((cs.dropWhile isPySpace).reverse.dropWhile isPySpace).reverse

/-- A regex `\w` character (ASCII restriction). -/
def isWordChar (c : Char) : Bool := c.isAlphanum || c == '_'

/-- Lower-cased `<eoh>` delimiter, the target of the case-insensitive
header search on line 14. -/
def eohPat : List Char := ['<', 'e', 'o', 'h', '>']

/-- Lower-cased `<eor>` delimiter, the target of the case-insensitive
record split on line 19. -/
def eorPat : List Char := ['<', 'e', 'o', 'r', '>']

/-- Case-insensitive match of the (lower-case) pattern `pat` at the head
of `cs`, as done by `re.IGNORECASE` on a literal pattern. -/
def matchesAt (pat cs : List Char) : Bool :=
  (cs.take pat.length).map Char.toLower == pat

/-- `re.search(r'<EOH>', content, re.IGNORECASE)` (line 14): scan left to
right for the first case-insensitive `<EOH>`; return the suffix after it. -/
def findEOH : List Char → Option (List Char)
  | [] => none
  | c :: rest =>
      if matchesAt eohPat (c :: rest) then some ((c :: rest).drop 5)
      else findEOH rest

/-- Lines 15-16: if `<EOH>` was found, keep only the text after it,
otherwise the whole content is the body. -/
def stripHeader (cs : List Char) : List Char :=
  match findEOH cs with
  | some suffix => suffix
  | none => cs

/-- Worker for `re.split(r'<EOR>', content, flags=re.IGNORECASE)` (line 19):
`acc` is the reversed current segment.  When a case-insensitive `<EOR>` is
found its five characters are consumed and a new segment starts.  (A
successful `matchesAt` guarantees at least five characters, so the inner
`match` always finds them.) -/
def splitEORAux : List Char → List Char → List (List Char)
  | acc, [] => [acc.reverse]
  | acc, c :: rest =>
      if matchesAt eorPat (c :: rest) then
        match rest with
        | _ :: _ :: _ :: _ :: rest' => acc.reverse :: splitEORAux [] rest'
        | _ => [acc.reverse]
      else splitEORAux (c :: acc) rest

/-- `re.split(r'<EOR>', content, flags=re.IGNORECASE)` (line 19). -/
def splitEOR (cs : List Char) : List (List Char) := splitEORAux [] cs

/-- One raw match of the field regex on line 22: captured name, declared
length (group 2 converted by `int`), and the raw value run. -/
structure RawField where
  name : List Char
  len : Nat
  raw : List Char
deriving DecidableEq

/-- `int(match.group(2))` on the captured digit run. -/
def digitVal (c : Char) : Nat := c.toNat - 48

/-- Numeric value of a digit run. -/
def digitsToNat (ds : List Char) : Nat :=
  ds.foldl (fun a c => a * 10 + digitVal c) 0

/-- Match the tag part `(\w+):(\d+)(?::\w)?>` of the field regex directly
after an `<`.  Greedy `\w+` and `\d+` take maximal runs (backtracking can
never help because the following mandatory character is not in the
repeated class); the single-character type hint is optional and ignored.
Returns the captured name, the declared length, and the text after `>`. -/
def parseTag (cs : List Char) : Option (List Char × Nat × List Char) :=
  let name := cs.takeWhile isWordChar
  let r1 := cs.dropWhile isWordChar
  if name = [] then none
  else
    match r1 with
    | ':' :: r2 =>
        let digits := r2.takeWhile Char.isDigit
        let r3 := r2.dropWhile Char.isDigit
        if digits = [] then none
        else
          match r3 with
          | '>' :: r4 => some (name, digitsToNat digits, r4)
          | ':' :: t :: '>' :: r4 =>
              if isWordChar t then some (name, digitsToNat digits, r4) else none
          | _ => none
    | _ => none

/-- `field_pattern.finditer(record)` (lines 22, 30): scan for `<`; at each
`<` try to parse a tag; on success the value run `(.*?)(?=<|\Z)` with
`re.DOTALL` is everything up to the next `<` or the end, and scanning
resumes there; on failure scanning advances one character.  The fuel is
the length of the scanned text: every step consumes at least one
character, so it never runs out before the text does. -/
def findFieldsAux : Nat → List Char → List RawField
  | 0, _ => []
  | _ + 1, [] => []
  | fuel + 1, c :: rest =>
      if c = '<' then
        match parseTag rest with
        | some (name, len, r4) =>
            { name := name, len := len, raw := r4.takeWhile (fun c => !(c == '<')) } ::
              findFieldsAux fuel (r4.dropWhile (fun c => !(c == '<')))
        | none => findFieldsAux fuel rest
      else findFieldsAux fuel rest

/-- All field matches of a record segment, in order. -/
def findFields (cs : List Char) : List RawField := findFieldsAux cs.length cs

/-- Line 33: `match.group(3)[:length].strip()` — truncate the raw value to
the declared length first, then trim surrounding whitespace. -/
def truncValue (len : Nat) (raw : List Char) : List Char :=
  pyStrip (raw.take len)

/-- The fixed set of known-numeric field names (lines 37-38). -/
def numericFieldNames : List String :=
  ["freq", "freq_rx", "tx_pwr", "distance", "cqz", "ituz", "dxcc",
   "my_cq_zone", "my_dxcc", "my_itu_zone"]

/-- Digit run with single underscores between digits, as accepted inside
Python numeric literals by `int()` / `float()`; `acc` holds the value so
far, `cnt` the number of digits consumed.  Call only after a first digit. -/
def digitsUCountAux : Nat → Nat → List Char → Option (Nat × Nat)
  | acc, cnt, [] => some (acc, cnt)
  | acc, cnt, '_' :: c :: rest =>
      if c.isDigit then digitsUCountAux (acc * 10 + digitVal c) (cnt + 1) rest else none
  | acc, cnt, c :: rest =>
      if c.isDigit then digitsUCountAux (acc * 10 + digitVal c) (cnt + 1) rest else none

/-- A full digit run (non-empty, must start with a digit, single
underscores only between digits), with its value and digit count. -/
def digitsUCount : List Char → Option (Nat × Nat)
  | [] => none
  | c :: rest => if c.isDigit then digitsUCountAux (digitVal c) 1 rest else none

/-- A full digit run, value only. -/
def digitsU (cs : List Char) : Option Nat := (digitsUCount cs).map Prod.fst

/-- Python `int(value)` (line 43), ASCII restriction: strip whitespace,
optional sign, then a digit run with optional single underscores between
digits; anything else raises `ValueError` (modelled as `none`). -/
def pyInt (cs : List Char) : Option Int :=
  match pyStrip cs with
  | '+' :: rest => (digitsU rest).map (fun n => (n : Int))
  | '-' :: rest => (digitsU rest).map (fun n => -(n : Int))
  | rest => (digitsU rest).map (fun n => (n : Int))

/-- The unsigned part of a Python float literal: `digits [. digits]` with
at least one digit overall, then an optional exponent `e|E [sign] digits`;
underscore placement as in `digitsUCount`.  (The `inf`/`nan` spellings
contain no `'.'` and therefore never reach the float branch of the
source, which is guarded by `'.' in value`.)  Returns the exact rational
value of the literal. -/
def pyFloatCore (cs : List Char) : Option Rat :=
  let mant := cs.takeWhile (fun c => !(c == 'e' || c == 'E'))
  let expPart := cs.dropWhile (fun c => !(c == 'e' || c == 'E'))
  let ip := mant.takeWhile (fun c => !(c == '.'))
  let fpRest := mant.dropWhile (fun c => !(c == '.'))
  let ipv? : Option (Nat × Nat) := if ip.isEmpty then some (0, 0) else digitsUCount ip
  let fpv? : Option (Nat × Nat) :=
    match fpRest with
    | [] => some (0, 0)
    | _ :: fp => if fp.isEmpty then some (0, 0) else digitsUCount fp
  let exp? : Option Int :=
    match expPart with
    | [] => some 0
    | _ :: es =>
        match es with
        | '+' :: es2 => (digitsU es2).map (fun n => (n : Int))
        | '-' :: es2 => (digitsU es2).map (fun n => -(n : Int))
        | es2 => (digitsU es2).map (fun n => (n : Int))
  match ipv?, fpv?, exp? with
  | some (iv, ic), some (fv, fc), some ex =>
      if ic + fc = 0 then none
      else
        let n : Nat := iv * 10 ^ fc + fv
        some (if 0 ≤ ex then mkRat (Int.ofNat (n * 10 ^ ex.toNat)) (10 ^ fc)
              else mkRat (Int.ofNat n) (10 ^ fc * 10 ^ (-ex).toNat))
  | _, _, _ => none

/-- Python `float(value)` (line 41), ASCII restriction: strip whitespace,
optional sign, then a decimal literal. -/
def pyFloat (cs : List Char) : Option Rat :=
  match pyStrip cs with
  | '+' :: rest => pyFloatCore rest
  | '-' :: rest => (pyFloatCore rest).map Neg.neg
  | rest => pyFloatCore rest

/-- Lines 39-45: for a known-numeric field, convert to float if the value
contains `'.'`, otherwise to int; a `ValueError` is swallowed and the
original string kept. -/
def convertNumeric (v : List Char) : Value :=
  if v.contains '.' then
    match pyFloat v with
    | some q => Value.floatV q
    | none => Value.str (String.mk v)
  else
    match pyInt v with
    | some n => Value.intV n
    | none => Value.str (String.mk v)

/-- The value finally stored under a field name (line 64): the numeric
conversion applies exactly to the fixed known-numeric names, every other
field keeps its string value.  (In the source the conversion rebinds
`value` before the date/time branches run, but those branches only fire
for `qso_date` / `time_on`, which are not in the numeric set, so there
`value` is still the trimmed string.) -/
def fieldValue (name : String) (v : List Char) : Value :=
  if name ∈ numericFieldNames then convertNumeric v else Value.str (String.mk v)

/-- `match.group(1).lower()` (line 31). -/
def loweredName (f : RawField) : String := String.mk (f.name.map Char.toLower)

/-- Gregorian leap year, as validated by `datetime`. -/
def isLeapYear (y : Nat) : Bool :=
  (y % 4 == 0 && y % 100 != 0) || y % 400 == 0

/-- Length of a month, as validated by the `datetime` constructor. -/
def daysInMonth (y m : Nat) : Nat :=
  if m = 2 then (if isLeapYear y then 29 else 28)
  else if m = 4 ∨ m = 6 ∨ m = 9 ∨ m = 11 then 30 else 31

/-- `datetime.strptime(value, '%Y%m%d')` on an 8-character string
(line 50).  CPython compiles `%Y` to exactly four digits and `%m`/`%d`
to one or two digits with the whole string required to match, so an
8-character input must split 4+2+2 and be all digits; the `datetime`
constructor then requires year ≥ 1, month 1-12 and a valid day of that
month, raising `ValueError` otherwise. -/
def parseDate8 (cs : List Char) : Option (Nat × Nat × Nat) :=
  match cs with
  | [y1, y2, y3, y4, m1, m2, d1, d2] =>
      if [y1, y2, y3, y4, m1, m2, d1, d2].all Char.isDigit then
        let y := ((digitVal y1 * 10 + digitVal y2) * 10 + digitVal y3) * 10 + digitVal y4
        let m := digitVal m1 * 10 + digitVal m2
        let d := digitVal d1 * 10 + digitVal d2
        if 1 ≤ y ∧ 1 ≤ m ∧ m ≤ 12 ∧ 1 ≤ d ∧ d ≤ daysInMonth y m then
          some (y, m, d)
        else none
      else none
  | _ => none

/-- The `%H%M%S` part of `datetime.strptime(..., '%Y%m%d%H%M%S')`
(line 60) on a 6-character string: forced 2+2+2 digit split; hours 0-23,
minutes 0-59, seconds 0-59 (the strptime regex admits leap seconds 60-61
but the `datetime` constructor rejects them with `ValueError`, which the
source swallows). -/
def parseTime6 (cs : List Char) : Option (Nat × Nat × Nat) :=
  match cs with
  | [h1, h2, m1, m2, s1, s2] =>
      if [h1, h2, m1, m2, s1, s2].all Char.isDigit then
        let hh := digitVal h1 * 10 + digitVal h2
        let mi := digitVal m1 * 10 + digitVal m2
        let ss := digitVal s1 * 10 + digitVal s2
        if hh ≤ 23 ∧ mi ≤ 59 ∧ ss ≤ 59 then some (hh, mi, ss) else none
      else none
  | _ => none

/-- `datetime.strptime(date_str + time_str, '%Y%m%d%H%M%S')` (line 60) on
the 14-character concatenation. -/
def parseDT14 (cs : List Char) : Option Value :=
  match parseDate8 (cs.take 8), parseTime6 (cs.drop 8) with
  | some (y, m, d), some (hh, mi, ss) => some (Value.datetime y m d hh mi ss)
  | _, _ => none

/-- `doc.get('qso_date', '')` as used on line 57.  The stored `qso_date`
value is always a `Value.str` (the name is not in the numeric set), so
the wildcard default is unreachable when the key is present. -/
def dateStrOf (doc : Doc) : List Char :=
  match Doc.get? doc "qso_date" with
  | some (Value.str s) => s.data
  | _ => []

/-- `value.ljust(6, '0')[:6]` (line 59). -/
def ljust6 (v : List Char) : List Char :=
  (v ++ List.replicate (6 - v.length) '0').take 6

/-- Lines 48-52: if the field is `qso_date` with an 8-character value,
try to parse it and store the midnight datetime under `qso_datetime`;
a parse failure is swallowed. -/
def dateBranch (doc : Doc) (name : String) (v : List Char) : Doc :=
  if name = "qso_date" ∧ v.length = 8 then
    match parseDate8 v with
    | some (y, m, d) => Doc.set doc "qso_datetime" (Value.datetime y m d 0 0 0)
    | none => doc
  else doc

/-- Lines 55-62: if the field is `time_on` and a `qso_date` is already
stored with an 8-character value and the time value has at least 4
characters, combine them into `qso_datetime`; a parse failure is
swallowed. -/
def timeBranch (doc : Doc) (name : String) (v : List Char) : Doc :=
  if name = "time_on" ∧ (Doc.get? doc "qso_date").isSome then
    if (dateStrOf doc).length = 8 ∧ 4 ≤ v.length then
      match parseDT14 (dateStrOf doc ++ ljust6 v) with
      | some dt => Doc.set doc "qso_datetime" dt
      | none => doc
    else doc
  else doc

/-- Lines 31-64: process one regex match against the record dict.
Truncate-then-trim the raw value; skip the field if the result is empty;
otherwise run the `qso_date` branch (lines 48-52), then the `time_on`
branch (lines 55-62), then store the (possibly numeric-converted) value
under the lower-cased name. -/
def processField (doc : Doc) (f : RawField) : Doc :=
  let name := loweredName f
  let v := truncValue f.len f.raw
  if v = [] then doc
  else Doc.set (timeBranch (dateBranch doc name v) name v) name (fieldValue name v)

/-- Fold of `processField` over the matches of one record, starting from
an arbitrary dict (the source starts from `{}`). -/
def buildDocFrom (doc : Doc) (fields : List RawField) : Doc :=
  fields.foldl processField doc

/-- The dict built for one record segment (lines 29-64). -/
def buildDoc (fields : List RawField) : Doc := buildDocFrom [] fields

/-- Lines 24-69 for a single segment: strip it, skip if blank, build the
dict, skip if empty, else stamp `imported_at` with the injected clock
value and emit. -/
def parseRecordSeg (now : Value) (seg : List Char) : Option Doc :=
  let s := pyStrip seg
  if s = [] then none
  else
    let doc := buildDoc (findFields s)
    if doc = [] then none else some (Doc.set doc "imported_at" now)

/-- `parse_adif` on raw content characters (the file read is outside the
embedding): strip the header, split on `<EOR>`, emit the surviving
records in order. -/
def parseAdifL (now : Value) (cs : List Char) : List Doc :=
  (splitEOR (stripHeader cs)).filterMap (parseRecordSeg now)

/-- `list(parse_adif(...))` on the file content as a string. -/
def parseAdif (now : Value) (content : String) : List Doc :=
  parseAdifL now content.data

/-- Whether a segment yields a record: non-blank after stripping and at
least one field survived into the dict. -/
def recordYield (seg : List Char) : Bool :=
  !(pyStrip seg).isEmpty && !(buildDoc (findFields (pyStrip seg))).isEmpty

/-- The condition under which the `time_on` branch recomputes
`qso_datetime` (lines 55-58): `qso_date` present, its (string) value of
length 8, and the trimmed `time_on` value at least 4 characters. -/
def dtCond (doc : Doc) (v : List Char) : Bool :=
  (Doc.get? doc "qso_date").isSome &&
    ((dateStrOf doc).length == 8) && decide (4 ≤ v.length)

/-- The value the record stores under `name` from a list of field matches:
the converted value of the last match whose lowered name is `name` and
whose truncated-and-trimmed value is non-empty, if any. -/
def lastStored (fields : List RawField) (name : String) : Option Value :=
  match fields with
  | [] => none
  | f :: fs =>
      match lastStored fs name with
      | some v => some v
      | none =>
          if loweredName f = name ∧ truncValue f.len f.raw ≠ [] then
            some (fieldValue name (truncValue f.len f.raw))
          else none

/-- Python `range(start, stop, step)` for a positive step, with explicit
fuel; since each iteration advances `start` by `step ≥ 1`, the fuel
`stop - start` always suffices. -/
def pyRangeAux : Nat → Nat → Nat → Nat → List Nat
  | 0, _, _, _ => []
  | fuel + 1, start, stop, step =>
      if start < stop then start :: pyRangeAux fuel (start + step) stop step else []

/-- `range(start, stop, step)` for `step ≥ 1`. -/
def pyRange (start stop step : Nat) : List Nat :=
  pyRangeAux (stop - start) start stop step

/-- Lines 94-95: the successive `records[i:i + batch_size]` slices passed
to `insert_many`, for `i in range(0, total_records, 100)`. -/
def mainBatches (records : List Doc) : List (List Doc) :=
  (pyRange 0 records.length 100).map (fun i => (records.drop i).take 100)

/-- Running `inserted` totals after each batch (line 97): `insert_many`
returns one generated id per supplied record, so each batch adds its
length. -/
def loaderCumulative : Nat → List (List Doc) → List Nat
  | _, [] => []
  | acc, b :: bs => (acc + b.length) :: loaderCumulative (acc + b.length) bs

/-- The final value of `inserted`. -/
def insertedCount (bs : List (List Doc)) : Nat := (bs.map List.length).sum

/-- The progress line printed after each batch (line 98). -/
def progressLine (inserted total : Nat) : String :=
  "Inserted " ++ toString inserted ++ "/" ++ toString total ++ " records..."

/-- The success line printed after the loop (line 100). -/
def successMessage (inserted : Nat) : String :=
  "\nSuccessfully imported " ++ toString inserted ++
    " QSO records into Log4YM.qso collection"

/-- The line printed when no records were parsed (line 102). -/
def noRecordsMessage : String := "No records found to import"

/-- Observable behaviour of the loader part of `main` (lines 89-102):
the sequence of `insert_many` calls, the progress lines, and the final
line. -/
structure MainRun where
  writes : List (List Doc)
  progress : List String
  finalLine : String
deriving DecidableEq

/-- Lines 89-102 as a function of the parsed records. -/
def mainLoader (records : List Doc) : MainRun :=
  let total := records.length
  if 0 < total then
    let bs := mainBatches records
    { writes := bs
      progress := (loaderCumulative 0 bs).map (fun n => progressLine n total)
      finalLine := successMessage (insertedCount bs) }
  else
    { writes := [], progress := [], finalLine := noRecordsMessage }

theorem Doc.get?_set : ∀ (d : Doc) (k : String) (v : Value) (k' : String),
    Doc.get? (Doc.set d k v) k' = if k' = k then some v else Doc.get? d k'
  | [], k, v, k' => by
      by_cases h : k' = k
      · subst h; simp [Doc.set, Doc.get?]
      · simp [Doc.set, Doc.get?, h, Ne.symm h]
  | (k₁, v₁) :: rest, k, v, k' => by
      by_cases h1 : k₁ = k
      · subst h1
        by_cases h2 : k' = k₁
        · subst h2; simp [Doc.set, Doc.get?]
        · simp [Doc.set, Doc.get?, h2, Ne.symm h2]
      · by_cases h3 : k₁ = k'
        · subst h3
          simp [Doc.set, Doc.get?, h1, Ne.symm h1]
        · simp [Doc.set, Doc.get?, h1, h3, Doc.get?_set rest k v k']

theorem Doc.set_ne_nil (d : Doc) (k : String) (v : Value) :
    Doc.set d k v ≠ [] := by
  cases d with
  | nil => simp [Doc.set]
  | cons p rest =>
      obtain ⟨k₁, v₁⟩ := p
      by_cases h : k₁ = k <;> simp [Doc.set, h]

/-- C1 (counterexample): the claim says that with `time_on` before
`qso_date` the emitted record has no `qso_datetime` entry.  On the input
`<time_on:4>1430<qso_date:8>20240115<EOR>` the code emits a record whose
`qso_datetime` IS set: processing `qso_date` alone (lines 48-52) stores
the date-only midnight datetime 2024-01-15T00:00:00, so the entry is not
left unset. -/
theorem time_before_date_sets_midnight_cex :
    parseAdif (Value.intV 0) "<time_on:4>1430<qso_date:8>20240115<EOR>" =
      [[("time_on", Value.str "1430"),
        ("qso_datetime", Value.datetime 2024 1 15 0 0 0),
        ("qso_date", Value.str "20240115"),
        ("imported_at", Value.intV 0)]] ∧
    Doc.get?
      [("time_on", Value.str "1430"),
        ("qso_datetime", Value.datetime 2024 1 15 0 0 0),
        ("qso_date", Value.str "20240115"),
        ("imported_at", Value.intV 0)] "qso_datetime" ≠ none := by
  exact ⟨by decide, by decide⟩

/-- C1 (amended): parsing a record with `qso_date=20240115` followed by
`time_on=1430` yields `qso_datetime` = 2024-01-15T14:30:00; with the
field order reversed, `qso_datetime` is instead set to the date-only
midnight value 2024-01-15T00:00:00 (not left unset): the `time_on`
branch finds no stored `qso_date` yet, but the later `qso_date` field
still derives the midnight datetime. -/
theorem qso_datetime_field_order :
    (parseAdif (Value.intV 0) "<qso_date:8>20240115<time_on:4>1430<EOR>" =
      [[("qso_datetime", Value.datetime 2024 1 15 14 30 0),
        ("qso_date", Value.str "20240115"),
        ("time_on", Value.str "1430"),
        ("imported_at", Value.intV 0)]]) ∧
    (parseAdif (Value.intV 0) "<time_on:4>1430<qso_date:8>20240115<EOR>" =
      [[("time_on", Value.str "1430"),
        ("qso_datetime", Value.datetime 2024 1 15 0 0 0),
        ("qso_date", Value.str "20240115"),
        ("imported_at", Value.intV 0)]]) := by
  exact ⟨by decide, by decide⟩

theorem pyStrip_length_le (cs : List Char) : (pyStrip cs).length ≤ cs.length := by
  unfold pyStrip
  calc ((cs.dropWhile isPySpace).reverse.dropWhile isPySpace).reverse.length
      = ((cs.dropWhile isPySpace).reverse.dropWhile isPySpace).length := by
        rw [List.length_reverse]
    _ ≤ (cs.dropWhile isPySpace).reverse.length :=
        (List.dropWhile_sublist isPySpace).length_le
    _ = (cs.dropWhile isPySpace).length := by rw [List.length_reverse]
    _ ≤ cs.length := (List.dropWhile_sublist isPySpace).length_le

theorem truncValue_length_le (len : Nat) (raw : List Char) :
    (truncValue len raw).length ≤ len := by
  unfold truncValue
  calc (pyStrip (raw.take len)).length
      ≤ (raw.take len).length := pyStrip_length_le _
    _ ≤ len := List.length_take_le _ _

theorem fieldValue_str (name : String) (v : List Char) (s : String)
    (h : fieldValue name v = Value.str s) : s = String.mk v := by
  unfold fieldValue convertNumeric at h
  split at h
  · split at h
    · split at h
      · exact absurd h (by simp)
      · exact ((Value.str.injEq _ _).mp h).symm
    · split at h
      · exact absurd h (by simp)
      · exact ((Value.str.injEq _ _).mp h).symm
  · exact ((Value.str.injEq _ _).mp h).symm

theorem Doc.get?_dateBranch (doc : Doc) (name : String) (v : List Char)
    (k : String) (hk : k ≠ "qso_datetime") :
    Doc.get? (dateBranch doc name v) k = Doc.get? doc k := by
  unfold dateBranch
  split
  · split
    · rw [Doc.get?_set]; simp [hk]
    · rfl
  · rfl

theorem Doc.get?_timeBranch (doc : Doc) (name : String) (v : List Char)
    (k : String) (hk : k ≠ "qso_datetime") :
    Doc.get? (timeBranch doc name v) k = Doc.get? doc k := by
  unfold timeBranch
  split
  · split
    · split
      · rw [Doc.get?_set]; simp [hk]
      · rfl
    · rfl
  · rfl

theorem Doc.get?_processField (doc : Doc) (f : RawField) (k : String)
    (hk : k ≠ "qso_datetime") :
    Doc.get? (processField doc f) k =
      if loweredName f = k ∧ truncValue f.len f.raw ≠ [] then
        some (fieldValue (loweredName f) (truncValue f.len f.raw))
      else Doc.get? doc k := by
  unfold processField
  by_cases hv : truncValue f.len f.raw = []
  · simp [hv]
  · simp only [if_neg hv]
    rw [Doc.get?_set]
    by_cases hn : loweredName f = k
    · subst hn
      simp [hv]
    · have hkn : ¬ k = loweredName f := fun h => hn h.symm
      simp only [if_neg hkn, if_neg (fun h : loweredName f = k ∧ _ => hn h.1)]
      rw [Doc.get?_timeBranch _ _ _ _ hk, Doc.get?_dateBranch _ _ _ _ hk]

theorem parseDT14_datetime (cs : List Char) (w : Value) (h : parseDT14 cs = some w) :
    ∃ y m d hh mi ss, w = Value.datetime y m d hh mi ss := by
  unfold parseDT14 at h
  split at h
  · cases h
    exact ⟨_, _, _, _, _, _, rfl⟩
  · cases h

theorem timeBranch_qso_datetime_str (doc : Doc) (name : String) (v : List Char)
    (s : String)
    (h : Doc.get? (timeBranch doc name v) "qso_datetime" = some (Value.str s)) :
    Doc.get? doc "qso_datetime" = some (Value.str s) := by
  unfold timeBranch at h
  split at h
  · split at h
    · split at h
      · rename_i dt hdt
        rw [Doc.get?_set] at h
        simp only [if_pos rfl] at h
        obtain ⟨y, m, d, hh, mi, ss, rfl⟩ := parseDT14_datetime _ _ hdt
        cases h
      · exact h
    · exact h
  · exact h

theorem dateBranch_qso_datetime_str (doc : Doc) (name : String) (v : List Char)
    (s : String)
    (h : Doc.get? (dateBranch doc name v) "qso_datetime" = some (Value.str s)) :
    Doc.get? doc "qso_datetime" = some (Value.str s) := by
  unfold dateBranch at h
  split at h
  · split at h
    · rw [Doc.get?_set] at h
      simp only [if_pos rfl] at h
      cases h
    · exact h
  · exact h

/-- C3: for any field match with declared length `L`, whenever the record
after processing that match holds a string under some key, that string
either was already there or is the truncated-and-trimmed value
`(raw[:L]).strip()` of this match, whose length is at most `L`. -/
theorem stored_string_truncation (doc : Doc) (f : RawField) (k : String) (s : String)
    (h : Doc.get? (processField doc f) k = some (Value.str s)) :
    Doc.get? doc k = some (Value.str s) ∨
      (s = String.mk (truncValue f.len f.raw) ∧ s.length ≤ f.len) := by
  by_cases hk : k = "qso_datetime"
  · subst hk
    unfold processField at h
    by_cases hv : truncValue f.len f.raw = []
    · rw [if_pos hv] at h
      exact Or.inl h
    · rw [if_neg hv, Doc.get?_set] at h
      by_cases hn : ("qso_datetime" : String) = loweredName f
      · rw [if_pos hn] at h
        have hfv : fieldValue (loweredName f) (truncValue f.len f.raw) = Value.str s :=
          Option.some.inj h
        refine Or.inr ⟨fieldValue_str _ _ _ hfv, ?_⟩
        rw [fieldValue_str _ _ _ hfv]
        exact truncValue_length_le _ _
      · rw [if_neg hn] at h
        exact Or.inl (dateBranch_qso_datetime_str _ _ _ _
          (timeBranch_qso_datetime_str _ _ _ _ h))
  · rw [Doc.get?_processField doc f k hk] at h
    split at h
    · have hfv : fieldValue (loweredName f) (truncValue f.len f.raw) = Value.str s :=
        Option.some.inj h
      refine Or.inr ⟨fieldValue_str _ _ _ hfv, ?_⟩
      rw [fieldValue_str _ _ _ hfv]
      exact truncValue_length_le _ _
    · exact Or.inl h

theorem stored_string_truncation_witness :
    Doc.get? [] "call" = some (Value.str "AB") ∨
      ("AB" = String.mk (truncValue 2 "ABCD".data) ∧ "AB".length ≤ 2) :=
  stored_string_truncation [] ⟨"call".data, 2, "ABCD".data⟩ "call" "AB" (by decide)

/-- C5: a known-numeric field stores exactly `convertNumeric` of its
truncated-and-trimmed value — float if the value contains `'.'`,
otherwise int, falling back to the unchanged string when the conversion
fails; in particular `freq=14.250` is stored as the rational 57/4
(= 14.25, exactly representable) and `freq=garbled` as the string
`"garbled"`. -/
theorem numeric_coercion_spec :
    (∀ (doc : Doc) (f : RawField),
        loweredName f ∈ numericFieldNames →
        truncValue f.len f.raw ≠ [] →
        Doc.get? (processField doc f) (loweredName f) =
          some (convertNumeric (truncValue f.len f.raw))) ∧
    parseAdif (Value.intV 0) "<freq:6>14.250<EOR>" =
      [[("freq", Value.floatV (mkRat 57 4)), ("imported_at", Value.intV 0)]] ∧
    parseAdif (Value.intV 0) "<freq:7>garbled<EOR>" =
      [[("freq", Value.str "garbled"), ("imported_at", Value.intV 0)]] := by
  refine ⟨?_, by decide, by decide⟩
  intro doc f hmem hv
  have hk : loweredName f ≠ "qso_datetime" := by
    intro hbad
    rw [hbad] at hmem
    exact absurd hmem (by decide)
  rw [Doc.get?_processField doc f _ hk, if_pos ⟨rfl, hv⟩]
  unfold fieldValue
  rw [if_pos hmem]

theorem numeric_coercion_spec_witness :
    Doc.get? (processField [] ⟨"freq".data, 6, "14.250".data⟩)
        (loweredName ⟨"freq".data, 6, "14.250".data⟩) =
      some (convertNumeric (truncValue 6 "14.250".data)) :=
  numeric_coercion_spec.1 [] ⟨"freq".data, 6, "14.250".data⟩ (by decide) (by decide)

/-- C6 (counterexample): "last occurrence wins" fails for two field
names.  For `imported_at` occurring twice (`a` then `b`), the emitted
record maps `imported_at` to the injected timestamp, not to the last
occurrence's value `"b"`.  For `qso_datetime` occurring twice (`a` then
`b`) followed by a `qso_date` field, the emitted record maps
`qso_datetime` to the derived midnight datetime, not to `"b"`. -/
theorem last_occurrence_cex :
    (parseAdif (Value.intV 0) "<imported_at:1>a<imported_at:1>b<EOR>" =
        [[("imported_at", Value.intV 0)]] ∧
      (some (Value.intV 0) : Option Value) ≠ some (Value.str "b")) ∧
    (parseAdif (Value.intV 0)
          "<qso_datetime:1>a<qso_datetime:1>b<qso_date:8>20240115<EOR>" =
        [[("qso_datetime", Value.datetime 2024 1 15 0 0 0),
          ("qso_date", Value.str "20240115"),
          ("imported_at", Value.intV 0)]] ∧
      (some (Value.datetime 2024 1 15 0 0 0) : Option Value) ≠
        some (Value.str "b")) := by
  exact ⟨⟨by decide, by decide⟩, ⟨by decide, by decide⟩⟩

/-- C6 (amended): within a record, for every field name other than
`qso_datetime` (which the derived-datetime branches may additionally
overwrite) the dict maps the name to the converted value of the last
occurrence with a non-empty truncated-and-trimmed value, each later
occurrence overwriting the earlier one; and the same holds in the
emitted record for every such name other than `imported_at` (which the
injected timestamp always overwrites at emission). -/
theorem last_occurrence_wins_amended :
    ∀ (fields : List RawField) (doc₀ : Doc) (name : String),
      name ≠ "qso_datetime" →
      (Doc.get? (buildDocFrom doc₀ fields) name =
        match lastStored fields name with
        | some v => some v
        | none => Doc.get? doc₀ name) ∧
      (name ≠ "imported_at" → ∀ now : Value,
        Doc.get? (Doc.set (buildDocFrom doc₀ fields) "imported_at" now) name =
          match lastStored fields name with
          | some v => some v
          | none => Doc.get? doc₀ name) := by
  have main : ∀ (fields : List RawField) (doc₀ : Doc) (name : String),
      name ≠ "qso_datetime" →
      Doc.get? (buildDocFrom doc₀ fields) name =
        match lastStored fields name with
        | some v => some v
        | none => Doc.get? doc₀ name := by
    intro fields
    induction fields with
    | nil => intro doc₀ name _; simp [buildDocFrom, lastStored]
    | cons f fs ih =>
        intro doc₀ name hk
        have hstep : buildDocFrom doc₀ (f :: fs) = buildDocFrom (processField doc₀ f) fs := rfl
        rw [hstep, ih (processField doc₀ f) name hk]
        cases hls : lastStored fs name with
        | some v => simp [lastStored, hls]
        | none =>
            simp only [lastStored, hls]
            rw [Doc.get?_processField doc₀ f name hk]
            by_cases hc : loweredName f = name ∧ truncValue f.len f.raw ≠ []
            · rw [if_pos hc, if_pos hc, hc.1]
            · rw [if_neg hc, if_neg hc]
  intro fields doc₀ name hk
  refine ⟨main fields doc₀ name hk, ?_⟩
  intro hia now
  rw [Doc.get?_set]
  rw [if_neg hia]
  exact main fields doc₀ name hk

theorem last_occurrence_wins_amended_witness :
    Doc.get? (buildDocFrom []
        [⟨"call".data, 1, "a".data⟩, ⟨"call".data, 1, "b".data⟩]) "call" =
      match lastStored [⟨"call".data, 1, "a".data⟩, ⟨"call".data, 1, "b".data⟩]
          "call" with
      | some v => some v
      | none => Doc.get? [] "call" :=
  (last_occurrence_wins_amended
    [⟨"call".data, 1, "a".data⟩, ⟨"call".data, 1, "b".data⟩] [] "call" (by decide)).1

/-- C9: every record emitted by the parser maps `imported_at` to the
injected wall-clock value: the stamp is assigned after all field
processing (line 68) and therefore overwrites any source-supplied field
of that name. -/
theorem imported_at_always_injected :
    ∀ (now : Value) (content : String) (doc : Doc),
      doc ∈ parseAdif now content → Doc.get? doc "imported_at" = some now := by
  intro now content doc hmem
  unfold parseAdif parseAdifL at hmem
  rw [List.mem_filterMap] at hmem
  obtain ⟨seg, _, hseg⟩ := hmem
  simp only [parseRecordSeg] at hseg
  split at hseg
  · cases hseg
  · split at hseg
    · cases hseg
    · cases hseg
      rw [Doc.get?_set]
      simp

theorem imported_at_always_injected_witness :
    Doc.get? [("imported_at", Value.intV 7)] "imported_at" = some (Value.intV 7) :=
  imported_at_always_injected (Value.intV 7) "<imported_at:3>abc<EOR>"
    [("imported_at", Value.intV 7)] (by decide)

theorem dateBranch_of_name_ne (doc : Doc) (name : String) (v : List Char)
    (h : name ≠ "qso_date") : dateBranch doc name v = doc := by
  unfold dateBranch
  rw [if_neg (fun hc => h hc.1)]

theorem timeBranch_of_dtCond_false (doc : Doc) (name : String) (v : List Char)
    (h : dtCond doc v = false) : timeBranch doc name v = doc := by
  unfold timeBranch
  by_cases h2 : name = "time_on" ∧ (Doc.get? doc "qso_date").isSome = true
  · rw [if_pos h2]
    have h3 : ¬((dateStrOf doc).length = 8 ∧ 4 ≤ v.length) := by
      intro hc
      unfold dtCond at h
      simp [h2.2, hc.1, hc.2] at h
    rw [if_neg h3]
  · rw [if_neg h2]

/-- C10: processing a `time_on` field leaves `qso_datetime` unchanged
whenever the combination condition fails — no stored `qso_date` string
of length 8, or a trimmed time value shorter than 4 characters — while
`time_on` itself is still stored as an ordinary (string) field. -/
theorem time_on_frame_condition :
    ∀ (doc : Doc) (f : RawField),
      loweredName f = "time_on" →
      truncValue f.len f.raw ≠ [] →
      dtCond doc (truncValue f.len f.raw) = false →
      Doc.get? (processField doc f) "qso_datetime" =
          Doc.get? doc "qso_datetime" ∧
        Doc.get? (processField doc f) "time_on" =
          some (Value.str (String.mk (truncValue f.len f.raw))) := by
  intro doc f hname hv hcond
  have hdb : dateBranch doc (loweredName f) (truncValue f.len f.raw) = doc := by
    apply dateBranch_of_name_ne
    rw [hname]
    decide
  have htb : timeBranch doc (loweredName f) (truncValue f.len f.raw) = doc :=
    timeBranch_of_dtCond_false doc _ _ hcond
  constructor
  · unfold processField
    rw [if_neg hv, Doc.get?_set, hdb, htb]
    rw [if_neg (show ¬("qso_datetime" : String) = loweredName f by
      rw [hname]; decide)]
  · rw [show ("time_on" : String) = loweredName f from hname.symm]
    rw [Doc.get?_processField doc f _ (by rw [hname]; decide)]
    rw [if_pos ⟨rfl, hv⟩]
    unfold fieldValue
    rw [if_neg (show ¬(loweredName f ∈ numericFieldNames) by
      rw [hname]; decide)]

theorem time_on_frame_condition_witness :
    Doc.get? (processField [] ⟨"time_on".data, 4, "1430".data⟩) "qso_datetime" =
        Doc.get? [] "qso_datetime" ∧
      Doc.get? (processField [] ⟨"time_on".data, 4, "1430".data⟩) "time_on" =
        some (Value.str (String.mk (truncValue 4 "1430".data))) :=
  time_on_frame_condition [] ⟨"time_on".data, 4, "1430".data⟩
    (by decide) (by decide) (by decide)

theorem parseRecordSeg_isSome (now : Value) (seg : List Char) :
    (parseRecordSeg now seg).isSome = recordYield seg := by
  simp only [parseRecordSeg, recordYield]
  by_cases h1 : pyStrip seg = []
  · simp [h1]
  · rw [if_neg h1]
    by_cases h2 : buildDoc (findFields (pyStrip seg)) = []
    · simp [h1, h2]
    · simp [h1, h2]

/-- C4: the parser yields exactly one record per segment that is
non-blank after stripping and contributes at least one field; every
yielded record is a non-empty mapping carrying `imported_at`; blank
segments yield no record. -/
theorem parser_record_count_invariants :
    ∀ (now : Value) (content : String),
      (parseAdif now content).length =
          (splitEOR (stripHeader content.data)).countP recordYield ∧
        (∀ doc ∈ parseAdif now content,
          doc ≠ [] ∧ Doc.get? doc "imported_at" = some now) ∧
        (∀ seg : List Char, pyStrip seg = [] → parseRecordSeg now seg = none) := by
  intro now content
  refine ⟨?_, ?_, ?_⟩
  · unfold parseAdif parseAdifL
    rw [List.length_filterMap_eq_countP]
    exact List.countP_congr (fun seg _ => by rw [parseRecordSeg_isSome])
  · intro doc hmem
    unfold parseAdif parseAdifL at hmem
    rw [List.mem_filterMap] at hmem
    obtain ⟨seg, _, hseg⟩ := hmem
    simp only [parseRecordSeg] at hseg
    split at hseg
    · cases hseg
    · split at hseg
      · cases hseg
      · cases hseg
        refine ⟨Doc.set_ne_nil _ _ _, ?_⟩
        rw [Doc.get?_set]
        simp
  · intro seg h
    simp [parseRecordSeg, h]

theorem parser_record_count_invariants_witness :
    ([("call", Value.str "AB"), ("imported_at", Value.intV 0)] : Doc) ≠ [] ∧
      Doc.get? [("call", Value.str "AB"), ("imported_at", Value.intV 0)]
          "imported_at" = some (Value.intV 0) :=
  (parser_record_count_invariants (Value.intV 0) "<call:2>AB<EOR>  ").2.1
    [("call", Value.str "AB"), ("imported_at", Value.intV 0)] (by decide)

/-- C8: on an empty parsed sequence the loader performs no write and
reports the distinct "no records found" line instead of a zero-batch
success line. -/
theorem empty_input_no_writes :
    ∀ records : List Doc, records.length = 0 →
      (mainLoader records).writes = [] ∧
        (mainLoader records).progress = [] ∧
        (mainLoader records).finalLine = noRecordsMessage ∧
        noRecordsMessage ≠ successMessage 0 := by
  intro records h
  have hneg : ¬ 0 < records.length := by omega
  unfold mainLoader
  rw [if_neg hneg]
  exact ⟨rfl, rfl, rfl, by decide⟩

theorem empty_input_no_writes_witness :
    (mainLoader []).writes = [] ∧
      (mainLoader []).progress = [] ∧
      (mainLoader []).finalLine = noRecordsMessage ∧
      noRecordsMessage ≠ successMessage 0 :=
  empty_input_no_writes [] rfl

theorem pyRangeAux_shift (fuel : Nat) :
    ∀ (start stop step t : Nat),
      pyRangeAux fuel (start + t) (stop + t) step =
        (pyRangeAux fuel start stop step).map (· + t) := by
  induction fuel with
  | zero => intro start stop step t; rfl
  | succ f ih =>
      intro start stop step t
      by_cases h : start < stop
      · simp only [pyRangeAux]
        rw [if_pos (by omega : start + t < stop + t), if_pos h]
        simp only [List.map_cons]
        congr 1
        rw [show start + t + step = start + step + t from by omega]
        exact ih (start + step) stop step t
      · simp only [pyRangeAux]
        rw [if_neg (by omega : ¬ start + t < stop + t), if_neg h]
        rfl

theorem pyRangeAux_fuel_invariant :
    ∀ (f₁ f₂ start stop : Nat),
      stop ≤ start + f₁ * 100 → stop ≤ start + f₂ * 100 →
      pyRangeAux f₁ start stop 100 = pyRangeAux f₂ start stop 100 := by
  intro f₁
  induction f₁ with
  | zero =>
      intro f₂ start stop h1 h2
      cases f₂ with
      | zero => rfl
      | succ f =>
          simp only [pyRangeAux]
          rw [if_neg (by omega : ¬ start < stop)]
  | succ f ih =>
      intro f₂ start stop h1 h2
      cases f₂ with
      | zero =>
          simp only [pyRangeAux]
          rw [if_neg (by omega : ¬ start < stop)]
      | succ f₂' =>
          simp only [pyRangeAux]
          by_cases h : start < stop
          · rw [if_pos h, if_pos h]
            congr 1
            exact ih f₂' (start + 100) stop (by omega) (by omega)
          · rw [if_neg h, if_neg h]

theorem mainBatches_nil : mainBatches [] = [] := rfl

theorem pyRange_chunk (n : Nat) (hn : 0 < n) :
    pyRange 0 n 100 = 0 :: (pyRange 0 (n - 100) 100).map (· + 100) := by
  unfold pyRange
  rw [Nat.sub_zero, Nat.sub_zero]
  cases n with
  | zero => omega
  | succ m =>
      show (if 0 < m + 1 then 0 :: pyRangeAux m (0 + 100) (m + 1) 100 else []) = _
      rw [if_pos (by omega : 0 < m + 1)]
      congr 1
      by_cases hc : m + 1 ≤ 100
      · have h1 : pyRangeAux m (0 + 100) (m + 1) 100 =
            pyRangeAux 0 (0 + 100) (m + 1) 100 :=
          pyRangeAux_fuel_invariant m 0 (0 + 100) (m + 1) (by omega) (by omega)
        rw [h1, show m + 1 - 100 = 0 from by omega]
        rfl
      · obtain ⟨k, hk⟩ : ∃ k, m + 1 = k + 100 := ⟨m + 1 - 100, by omega⟩
        rw [hk, Nat.add_sub_cancel]
        have h1 : pyRangeAux m (0 + 100) (k + 100) 100 =
            pyRangeAux k (0 + 100) (k + 100) 100 :=
          pyRangeAux_fuel_invariant m k (0 + 100) (k + 100) (by omega) (by omega)
        rw [h1]
        exact pyRangeAux_shift k 0 k 100 100

theorem mainBatches_cons (l : List Doc) (h : l ≠ []) :
    mainBatches l = l.take 100 :: mainBatches (l.drop 100) := by
  have hn : 0 < l.length := List.length_pos.mpr h
  unfold mainBatches
  rw [pyRange_chunk l.length hn]
  simp only [List.map_cons, List.map_map, List.drop_zero, List.length_drop]
  congr 1
  apply List.map_congr_left
  intro i _
  simp only [Function.comp_apply]
  rw [List.drop_drop]
  rw [Nat.add_comm 100 i]

theorem mainBatches_spec_aux :
    ∀ (fuel : Nat) (l : List Doc), l.length ≤ fuel →
      (mainBatches l).length = (l.length + 99) / 100 ∧
        (mainBatches l).flatten = l := by
  intro fuel
  induction fuel with
  | zero =>
      intro l hl
      have hnil : l = [] := List.length_eq_zero.mp (by omega)
      subst hnil
      exact ⟨by decide, rfl⟩
  | succ f ih =>
      intro l hl
      by_cases hnil : l = []
      · subst hnil
        exact ⟨by decide, rfl⟩
      · rw [mainBatches_cons l hnil]
        have hpos : 1 ≤ l.length := List.length_pos.mpr hnil
        have hdrop : (l.drop 100).length ≤ f := by
          rw [List.length_drop]; omega
        obtain ⟨ihlen, ihflat⟩ := ih (l.drop 100) hdrop
        constructor
        · simp only [List.length_cons, ihlen, List.length_drop]
          by_cases hc : l.length ≤ 100
          · rw [show l.length - 100 = 0 from by omega]
            rw [show (l.length + 99) / 100 = 1 from
              Nat.div_eq_of_lt_le (by omega) (by omega)]
          · rw [show l.length + 99 = (l.length - 100 + 99) + 100 from by omega,
              Nat.add_div_right _ (by norm_num : 0 < 100)]
        · rw [List.flatten_cons, ihflat, List.take_append_drop]

/-- C2: with 250 parsed records the loader issues exactly the three
slices `records[0:100]`, `records[100:200]`, `records[200:300]` of sizes
100, 100, 50, covering the records in order, and the reported cumulative
counts after each batch are 100, 200, 250; in general the loader issues
`⌈n / 100⌉` batches whose concatenation is the input and whose sizes sum
to the input length. -/
theorem loader_batching_spec :
    (∀ records : List Doc, records.length = 250 →
        mainBatches records =
            [records.take 100, (records.drop 100).take 100,
              (records.drop 200).take 100] ∧
          (mainBatches records).map List.length = [100, 100, 50] ∧
          (mainBatches records).flatten = records ∧
          loaderCumulative 0 (mainBatches records) = [100, 200, 250] ∧
          (mainLoader records).progress =
            [progressLine 100 250, progressLine 200 250, progressLine 250 250]) ∧
    (∀ l : List Doc,
        (mainBatches l).length = (l.length + 99) / 100 ∧
          (mainBatches l).flatten = l ∧
          ((mainBatches l).map List.length).sum = l.length) := by
  constructor
  · intro records h250
    have h1 : records ≠ [] := by
      intro h; rw [h] at h250; exact absurd h250 (by decide)
    have hd1 : (records.drop 100).length = 150 := by
      rw [List.length_drop, h250]
    have h2 : records.drop 100 ≠ [] := by
      intro h; rw [h] at hd1; exact absurd hd1 (by decide)
    have hdd : (records.drop 100).drop 100 = records.drop 200 := by
      rw [List.drop_drop]
    have hd2 : (records.drop 200).length = 50 := by
      rw [List.length_drop, h250]
    have h3 : records.drop 200 ≠ [] := by
      intro h; rw [h] at hd2; exact absurd hd2 (by decide)
    have hdd2 : (records.drop 200).drop 100 = [] := by
      apply List.length_eq_zero.mp
      rw [List.length_drop, hd2]
    have efull : mainBatches records =
        [records.take 100, (records.drop 100).take 100,
          (records.drop 200).take 100] := by
      rw [mainBatches_cons records h1, mainBatches_cons _ h2, hdd,
        mainBatches_cons _ h3, hdd2, mainBatches_nil]
    have l1 : (records.take 100).length = 100 := by
      rw [List.length_take, h250]; omega
    have l2 : ((records.drop 100).take 100).length = 100 := by
      rw [List.length_take, hd1]; omega
    have l3 : ((records.drop 200).take 100).length = 50 := by
      rw [List.length_take, hd2]; omega
    have hmap : (mainBatches records).map List.length = [100, 100, 50] := by
      rw [efull]
      simp only [List.map_cons, List.map_nil, l1, l2, l3]
    have t3 : (records.drop 200).take 100 = records.drop 200 :=
      List.take_of_length_le (by rw [hd2]; omega)
    have hflat : (mainBatches records).flatten = records := by
      rw [efull]
      simp only [List.flatten_cons, List.flatten_nil, List.append_nil]
      rw [t3, ← hdd, List.take_append_drop, List.take_append_drop]
    have hcum : loaderCumulative 0 (mainBatches records) = [100, 200, 250] := by
      rw [efull]
      simp only [loaderCumulative, l1, l2, l3]
    refine ⟨efull, hmap, hflat, hcum, ?_⟩
    have hprog : (mainLoader records).progress =
        (loaderCumulative 0 (mainBatches records)).map
          (fun n => progressLine n records.length) := by
      simp only [mainLoader]
      rw [if_pos (by omega : 0 < records.length)]
    rw [hprog, hcum, h250]
    rfl
  · intro l
    obtain ⟨ha, hb⟩ := mainBatches_spec_aux l.length l (Nat.le_refl _)
    refine ⟨ha, hb, ?_⟩
    rw [← List.length_flatten, hb]

theorem loader_batching_spec_witness :
    mainBatches (List.replicate 250 ([] : Doc)) =
        [(List.replicate 250 ([] : Doc)).take 100,
          ((List.replicate 250 ([] : Doc)).drop 100).take 100,
          ((List.replicate 250 ([] : Doc)).drop 200).take 100] ∧
      (mainBatches (List.replicate 250 ([] : Doc))).map List.length =
        [100, 100, 50] ∧
      (mainBatches (List.replicate 250 ([] : Doc))).flatten =
        List.replicate 250 ([] : Doc) ∧
      loaderCumulative 0 (mainBatches (List.replicate 250 ([] : Doc))) =
        [100, 200, 250] ∧
      (mainLoader (List.replicate 250 ([] : Doc))).progress =
        [progressLine 100 250, progressLine 200 250, progressLine 250 250] :=
  loader_batching_spec.1 (List.replicate 250 ([] : Doc))
    (by rw [List.length_replicate])

theorem matchesAt_congr (pat cs1 cs2 : List Char)
    (h : cs1.map Char.toLower = cs2.map Char.toLower) :
    matchesAt pat cs1 = matchesAt pat cs2 := by
  unfold matchesAt
  rw [List.map_take, List.map_take, h]

theorem list_five_of_length (l : List Char) (h : l.length = 5) :
    ∃ a b c d e, l = [a, b, c, d, e] := by
  rcases l with _ | ⟨a, l⟩; · simp at h
  rcases l with _ | ⟨b, l⟩; · simp at h
  rcases l with _ | ⟨c, l⟩; · simp at h
  rcases l with _ | ⟨d, l⟩; · simp at h
  rcases l with _ | ⟨e, l⟩; · simp at h
  rcases l with _ | ⟨f, l⟩
  · exact ⟨a, b, c, d, e, rfl⟩
  · simp only [List.length_cons] at h; omega

theorem findEOH_concat : ∀ (hdr d body : List Char),
    d.map Char.toLower = eohPat →
    (∀ p, p < hdr.length → matchesAt eohPat ((hdr ++ d ++ body).drop p) = false) →
    findEOH (hdr ++ d ++ body) = some body := by
  intro hdr
  induction hdr with
  | nil =>
      intro d body hd _
      have hlen : d.length = 5 := by simpa using congrArg List.length hd
      obtain ⟨a, b, c, e, f, rfl⟩ := list_five_of_length d hlen
      show findEOH (a :: (b :: c :: e :: f :: body)) = some body
      have hm : matchesAt eohPat (a :: b :: c :: e :: f :: body) = true := by
        show (List.map Char.toLower [a, b, c, e, f] == eohPat) = true
        rw [hd]
        simp
      simp only [findEOH, hm, if_true]
      rfl
  | cons c0 hdr' ih =>
      intro d body hd H
      have h0 : matchesAt eohPat (c0 :: (hdr' ++ d ++ body)) = false := by
        have h := H 0 (by simp)
        simpa using h
      show findEOH (c0 :: (hdr' ++ d ++ body)) = some body
      simp only [findEOH, h0, Bool.false_eq_true, if_false]
      exact ih d body hd (fun p hp => by
        have h := H (p + 1) (by simp only [List.length_cons]; omega)
        simpa using h)

theorem stripHeader_concat (hdr d body : List Char)
    (hd : d.map Char.toLower = eohPat)
    (H : ∀ p, p < hdr.length →
      matchesAt eohPat ((hdr ++ eohPat ++ body).drop p) = false) :
    stripHeader (hdr ++ d ++ body) = body := by
  have hlow : (hdr ++ d ++ body).map Char.toLower =
      (hdr ++ eohPat ++ body).map Char.toLower := by
    simp only [List.map_append, hd]
    rw [show eohPat.map Char.toLower = eohPat from by decide]
  have H' : ∀ p, p < hdr.length →
      matchesAt eohPat ((hdr ++ d ++ body).drop p) = false := by
    intro p hp
    have hmm : matchesAt eohPat ((hdr ++ d ++ body).drop p) =
        matchesAt eohPat ((hdr ++ eohPat ++ body).drop p) :=
      matchesAt_congr _ _ _ (by rw [List.map_drop, List.map_drop, hlow])
    rw [hmm]
    exact H p hp
  unfold stripHeader
  rw [findEOH_concat hdr d body hd H']

theorem splitEORAux_concat : ∀ (pre acc d post : List Char),
    d.map Char.toLower = eorPat →
    (∀ p, p < pre.length → matchesAt eorPat ((pre ++ d ++ post).drop p) = false) →
    splitEORAux acc (pre ++ d ++ post) = (acc.reverse ++ pre) :: splitEOR post := by
  intro pre
  induction pre with
  | nil =>
      intro acc d post hd _
      have hlen : d.length = 5 := by simpa using congrArg List.length hd
      obtain ⟨a, b, c, e, f, rfl⟩ := list_five_of_length d hlen
      show splitEORAux acc (a :: (b :: c :: e :: f :: post)) =
        (acc.reverse ++ []) :: splitEOR post
      have hm : matchesAt eorPat (a :: b :: c :: e :: f :: post) = true := by
        show (List.map Char.toLower [a, b, c, e, f] == eorPat) = true
        rw [hd]
        simp
      simp only [splitEORAux, hm, if_true, List.append_nil]
      rfl
  | cons c0 pre' ih =>
      intro acc d post hd H
      have h0 : matchesAt eorPat (c0 :: (pre' ++ d ++ post)) = false := by
        have h := H 0 (by simp)
        simpa using h
      show splitEORAux acc (c0 :: (pre' ++ d ++ post)) =
        (acc.reverse ++ (c0 :: pre')) :: splitEOR post
      rw [splitEORAux.eq_def]
      simp only [h0, Bool.false_eq_true, if_false]
      rw [ih (c0 :: acc) d post hd (fun p hp => by
        have h := H (p + 1) (by simp only [List.length_cons]; omega)
        simpa using h)]
      simp

theorem splitEOR_concat (pre d post : List Char)
    (hd : d.map Char.toLower = eorPat)
    (H : ∀ p, p < pre.length →
      matchesAt eorPat ((pre ++ eorPat ++ post).drop p) = false) :
    splitEOR (pre ++ d ++ post) = pre :: splitEOR post := by
  have hlow : (pre ++ d ++ post).map Char.toLower =
      (pre ++ eorPat ++ post).map Char.toLower := by
    simp only [List.map_append, hd]
    rw [show eorPat.map Char.toLower = eorPat from by decide]
  have H' : ∀ p, p < pre.length →
      matchesAt eorPat ((pre ++ d ++ post).drop p) = false := by
    intro p hp
    have hmm : matchesAt eorPat ((pre ++ d ++ post).drop p) =
        matchesAt eorPat ((pre ++ eorPat ++ post).drop p) :=
      matchesAt_congr _ _ _ (by rw [List.map_drop, List.map_drop, hlow])
    rw [hmm]
    exact H p hp
  have h := splitEORAux_concat pre [] d post hd H'
  simpa [splitEOR] using h

/-- C7: the delimiters are matched case-insensitively.  Any character
list `d` whose lower-casing is `<eoh>` terminates the header region
identically: when no earlier case-insensitive `<EOH>` occurrence starts
inside `hdr`, the parse of `hdr ++ d ++ body` is exactly the parse of
`body`, independent of which case variant `d` is (in particular `<eoh>`,
`<EOH>`, `<EoH>` behave identically, witnessed concretely in the last
conjunct).  Likewise any case variant of `<eor>` splits off exactly the
same segment `pre`, so the parsed record sequence does not depend on the
variant. -/
theorem delimiter_case_insensitive :
    (∀ (now : Value) (hdr d body : List Char),
        d.map Char.toLower = eohPat →
        (∀ p, p < hdr.length →
          matchesAt eohPat ((hdr ++ eohPat ++ body).drop p) = false) →
        parseAdifL now (hdr ++ d ++ body) =
          (splitEOR body).filterMap (parseRecordSeg now)) ∧
    (∀ (pre d post : List Char),
        d.map Char.toLower = eorPat →
        (∀ p, p < pre.length →
          matchesAt eorPat ((pre ++ eorPat ++ post).drop p) = false) →
        splitEOR (pre ++ d ++ post) = pre :: splitEOR post) ∧
    (parseAdif (Value.intV 0) "head<eoh><a:1>x<eor>" =
        parseAdif (Value.intV 0) "head<EOH><a:1>x<eor>" ∧
      parseAdif (Value.intV 0) "head<EOH><a:1>x<eor>" =
        parseAdif (Value.intV 0) "head<EoH><a:1>x<eor>") := by
  refine ⟨?_, splitEOR_concat, by decide, by decide⟩
  intro now hdr d body hd H
  unfold parseAdifL
  rw [stripHeader_concat hdr d body hd H]

theorem delimiter_case_insensitive_witness :
    (parseAdifL (Value.intV 0) ("head".data ++ "<EoH>".data ++ "<a:1>x".data) =
        (splitEOR "<a:1>x".data).filterMap (parseRecordSeg (Value.intV 0))) ∧
      (splitEOR ("seg".data ++ "<eOr>".data ++ "rest".data) =
        "seg".data :: splitEOR "rest".data) :=
  ⟨delimiter_case_insensitive.1 (Value.intV 0) "head".data "<EoH>".data
      "<a:1>x".data (by decide) (by decide),
    delimiter_case_insensitive.2.1 "seg".data "<eOr>".data "rest".data
      (by decide) (by decide)⟩
